import Mathlib

/-!
# Verification of the D2-NF mixed-layer heat-budget engine

Shallow embedding of `process_d2nf.py` (the numerical core: vertical column
diagnostics `ml_avg_Tb_Tz_sfc`, the centered-difference operators `ddx_c` /
`ddy_c`, and the per-day budget assembly inside `process_year`), together
with proofs of the spec's testable properties.

Modelling conventions:
* A 64-bit float cell is a `Val`: either the not-a-number sentinel `Val.nan`
  or a finite value `Val.num q` with `q : ℚ`.  Arithmetic propagates `nan`;
  comparisons with `nan` are `false`, mirroring IEEE semantics as used by
  numpy (`np.where(x < 0, x, 0)` maps `nan` to `0`, `np.clip` propagates it).
  Division by zero yields `nan` (numpy would yield an infinity; no code path
  relevant to a claim divides by zero with a claim resting on the result).
* 2-D / 3-D numpy arrays are total functions from indices; the per-cell
  formulas are transcribed expression by expression from the source.
* `np.exp` is kept abstract as a field `expQ : ℚ → ℚ` of the environment:
  every property proved here is independent of its values, only of the fact
  that it maps a finite value to a finite value and `nan` to `nan`.
* Python's negative indexing (used when the boundary-pair index underflows
  for a single-level column) is modelled explicitly by `pyIdx`.
-/

set_option maxRecDepth 8000

/-- A floating-point cell value: the not-a-number sentinel or a finite
rational. -/
inductive Val where
  | nan : Val
  | num : ℚ → Val
deriving DecidableEq

namespace Val

/-- `np.isfinite` on a cell. -/
def isfinite : Val → Bool
  | nan => false
  | num _ => true

/-- Addition, propagating `nan`. -/
def add : Val → Val → Val
  | num a, num b => num (a + b)
  | _, _ => nan

/-- Subtraction, propagating `nan`. -/
def sub : Val → Val → Val
  | num a, num b => num (a - b)
  | _, _ => nan

/-- Multiplication, propagating `nan`. -/
def mul : Val → Val → Val
  | num a, num b => num (a * b)
  | _, _ => nan

/-- Division, propagating `nan`; a zero divisor also yields `nan`. -/
def div : Val → Val → Val
  | num a, num b => if b = 0 then nan else num (a / b)
  | _, _ => nan

/-- Negation, propagating `nan`. -/
def neg : Val → Val
  | num a => num (-a)
  | nan => nan

/-- Strict `<` as numpy evaluates it elementwise: any comparison with
`nan` is `false`. -/
def lt : Val → Val → Bool
  | num a, num b => decide (a < b)
  | _, _ => false

/-- `np.maximum`, propagating `nan` (the `if` form is `max_def`, spelled
out so that the kernel can evaluate it on concrete rationals). -/
def vmax : Val → Val → Val
  | num a, num b => num (if a ≤ b then b else a)
  | _, _ => nan

/-- `np.minimum`, propagating `nan` (the `if` form is `min_def`). -/
def vmin : Val → Val → Val
  | num a, num b => num (if a ≤ b then a else b)
  | _, _ => nan

/-- `np.clip x lo hi = np.minimum (np.maximum x lo) hi`. -/
def clip (x lo hi : Val) : Val :=
  vmin (vmax x lo) hi

instance : Add Val := ⟨Val.add⟩
instance : Sub Val := ⟨Val.sub⟩
instance : Mul Val := ⟨Val.mul⟩
instance : Div Val := ⟨Val.div⟩
instance : Neg Val := ⟨Val.neg⟩

theorem add_def (x y : Val) : x + y = x.add y := rfl
theorem sub_def (x y : Val) : x - y = x.sub y := rfl
theorem mul_def (x y : Val) : x * y = x.mul y := rfl
theorem div_def (x y : Val) : x / y = x.div y := rfl
theorem neg_def (x : Val) : -x = x.neg := rfl

@[simp] theorem num_add_num (a b : ℚ) : num a + num b = num (a + b) := rfl
@[simp] theorem num_sub_num (a b : ℚ) : num a - num b = num (a - b) := rfl
@[simp] theorem num_mul_num (a b : ℚ) : num a * num b = num (a * b) := rfl
@[simp] theorem num_div_num (a b : ℚ) :
    num a / num b = if b = 0 then nan else num (a / b) := rfl
@[simp] theorem neg_num (a : ℚ) : -(num a) = num (-a) := rfl
@[simp] theorem neg_nan : -(nan : Val) = nan := rfl

@[simp] theorem nan_add (x : Val) : nan + x = nan := by cases x <;> rfl
@[simp] theorem add_nan (x : Val) : x + nan = nan := by cases x <;> rfl
@[simp] theorem nan_sub (x : Val) : nan - x = nan := by cases x <;> rfl
@[simp] theorem sub_nan (x : Val) : x - nan = nan := by cases x <;> rfl
@[simp] theorem nan_mul (x : Val) : nan * x = nan := by cases x <;> rfl
@[simp] theorem mul_nan (x : Val) : x * nan = nan := by cases x <;> rfl
@[simp] theorem nan_div (x : Val) : nan / x = nan := by cases x <;> rfl
@[simp] theorem div_nan (x : Val) : x / nan = nan := by cases x <;> rfl

@[simp] theorem isfinite_nan : (nan : Val).isfinite = false := rfl
@[simp] theorem isfinite_num (a : ℚ) : (num a).isfinite = true := rfl

@[simp] theorem lt_nan (x : Val) : Val.lt x nan = false := by cases x <;> rfl
@[simp] theorem nan_lt (x : Val) : Val.lt nan x = false := by cases x <;> rfl
@[simp] theorem num_lt_num (a b : ℚ) : Val.lt (num a) (num b) = decide (a < b) := rfl

@[simp] theorem clip_nan (lo hi : Val) : clip nan lo hi = nan := by
  cases lo <;> cases hi <;> rfl
@[simp] theorem clip_num (a lo hi : ℚ) :
    clip (num a) (num lo) (num hi) = num (min (max a lo) hi) := by
  simp only [clip, vmax, vmin, max_def, min_def]

end Val

/-- A 2-D field, indexed `(j, i)` = (row, column). -/
abbrev Arr2 := ℕ → ℕ → Val

/-- A 3-D field, indexed `(k, j, i)` = (level, row, column). -/
abbrev Arr3 := ℕ → ℕ → ℕ → Val

/-! ## Source constants (`process_d2nf.py`, "constants" block) -/

/-- Seawater density `RHO = 1026.0` [kg m⁻³]. -/
def RHO : ℚ := 1026

/-- Heat capacity `CP = 4000.0` [J kg⁻¹ K⁻¹]. -/
def CP : ℚ := 4000

/-- One day `DT = 86400.0` [s]. -/
def DT : ℚ := 86400

/-- Shortwave two-band partition `R_SW = 0.77`. -/
def R_SW : ℚ := 77 / 100

/-- Shortwave attenuation scale `GAM1 = 1.5` [m]. -/
def GAM1 : ℚ := 3 / 2

/-- Shortwave attenuation scale `GAM2 = 14.0` [m]. -/
def GAM2 : ℚ := 14

/-! ## Horizontal derivative operators (source lines 94–102) -/

/-- `ddx_c`: centered difference along the column axis.  The source
allocates a `nan`-filled array and assigns only columns `1 .. Nx-2`:
`out[:,1:-1] = (field[:,2:] - field[:,0:-2]) / (2.0*dx_row[:,None])`. -/
def ddx_c (field : Arr2) (dx_row : ℕ → ℚ) (Nx : ℕ) : Arr2 := fun j i =>
  if 1 ≤ i ∧ i + 1 < Nx then
    (field j (i + 1) - field j (i - 1)) / Val.num (2 * dx_row j)
  else
    Val.nan

/-- `ddy_c`: centered difference along the row axis with a scalar spacing:
`out[1:-1,:] = (field[2:,:] - field[0:-2,:]) / (2.0*dy)`. -/
def ddy_c (field : Arr2) (dy : ℚ) (Ny : ℕ) : Arr2 := fun j i =>
  if 1 ≤ j ∧ j + 1 < Ny then
    (field (j + 1) i - field (j - 1) i) / Val.num (2 * dy)
  else
    Val.nan

/-! ## Half-level boundaries (source lines 123–132) -/

/-- The half-level boundary array `zhalf[0..Nz]`:
`zhalf[0] = 0`, `zhalf[k+1] = 0.5*(depth[k]+depth[k+1])` for `k < Nz-1`,
and the extrapolated bottom `zhalf[Nz] = depth[Nz-1] + 0.5*(depth[Nz-1] -
depth[Nz-2])` when `Nz ≥ 2`, else `depth[Nz-1] + 1`. -/
def zhalfF (depth : ℕ → ℚ) (Nz : ℕ) (k : ℕ) : ℚ :=
  if k = 0 then 0
  else if k < Nz then (depth (k - 1) + depth k) / 2
  else if 2 ≤ Nz then depth (Nz - 1) + (depth (Nz - 1) - depth (Nz - 2)) / 2
  else depth (Nz - 1) + 1

/-- Chain a pointwise strict increase of `depth` into monotonicity. -/
theorem depth_mono_le (depth : ℕ → ℚ) (Nz : ℕ)
    (hdm : ∀ k, k + 1 < Nz → depth k < depth (k + 1)) :
    ∀ a b, a ≤ b → b < Nz → depth a ≤ depth b := by
  intro a b hab hb
  induction b with
  | zero =>
    have : a = 0 := Nat.le_zero.mp hab
    simp [this]
  | succ n ih =>
    rcases eq_or_lt_of_le hab with h | h
    · exact h ▸ le_refl _
    · have ha : a ≤ n := Nat.lt_succ_iff.mp h
      exact le_trans (ih ha (Nat.lt_of_succ_lt hb)) (le_of_lt (hdm n hb))

/-- Helper: strict monotonicity of the half-level boundaries, for any
`Nz ≥ 1`, from a strictly increasing positive depth array. -/
theorem zhalfF_strict_mono (depth : ℕ → ℚ) (Nz : ℕ)
    (hdm : ∀ k, k + 1 < Nz → depth k < depth (k + 1))
    (hdp : ∀ k, k < Nz → 0 < depth k) :
    ∀ k, k < Nz → zhalfF depth Nz k < zhalfF depth Nz (k + 1) := by
  intro k hk
  rcases Nat.eq_zero_or_pos k with hk0 | hkpos
  · subst hk0
    rcases Nat.lt_or_ge 1 Nz with h1 | h1
    · have h0 : 0 < depth 0 := hdp 0 hk
      have h1' : 0 < depth 1 := hdp 1 h1
      have e0 : zhalfF depth Nz 0 = 0 := by simp [zhalfF]
      have e1 : zhalfF depth Nz 1 = (depth 0 + depth 1) / 2 := by
        simp [zhalfF, h1]
      rw [e0, e1]; linarith
    · have hNz1 : Nz = 1 := Nat.le_antisymm h1 hk
      subst hNz1
      have h0 : 0 < depth 0 := hdp 0 hk
      have e0 : zhalfF depth 1 0 = 0 := by simp [zhalfF]
      have e1 : zhalfF depth 1 1 = depth 0 + 1 := by norm_num [zhalfF]
      rw [e0, e1]; linarith
  · have hk1 : k ≠ 0 := Nat.pos_iff_ne_zero.mp hkpos
    rcases Nat.lt_or_ge (k + 1) Nz with h2 | h2
    · -- both interior
      have e1 : zhalfF depth Nz k = (depth (k - 1) + depth k) / 2 := by
        simp only [zhalfF, if_neg hk1, if_pos hk]
      have e2 : zhalfF depth Nz (k + 1) = (depth k + depth (k + 1)) / 2 := by
        simp only [zhalfF, if_neg (Nat.succ_ne_zero k), if_pos h2,
          Nat.add_sub_cancel]
      have hlt1 : depth (k - 1) < depth k := by
        have := hdm (k - 1) (by omega)
        rwa [Nat.sub_add_cancel hkpos] at this
      have hlt2 : depth k < depth (k + 1) := hdm k h2
      rw [e1, e2]; linarith
    · -- k + 1 = Nz : bottom boundary
      have hNz : k + 1 = Nz := Nat.le_antisymm hk h2
      have hNz2 : 2 ≤ Nz := by omega
      have e1 : zhalfF depth Nz k = (depth (k - 1) + depth k) / 2 := by
        simp only [zhalfF, if_neg hk1, if_pos hk]
      have e2 : zhalfF depth Nz (k + 1) =
          depth (Nz - 1) + (depth (Nz - 1) - depth (Nz - 2)) / 2 := by
        simp only [zhalfF, if_neg (Nat.succ_ne_zero k), if_neg (by omega : ¬ k + 1 < Nz),
          if_pos hNz2]
      have hkk : k = Nz - 1 := by omega
      have hk2 : k - 1 = Nz - 2 := by omega
      have hlt1 : depth (k - 1) < depth k := by
        have := hdm (k - 1) (by omega)
        rwa [Nat.sub_add_cancel hkpos] at this
      rw [e1, e2, ← hkk, ← hk2]; linarith

/-- Helper: each level's center depth lies at or above the next half-level
boundary: `depth k ≤ zhalf (k+1)` for `k < Nz`. -/
theorem depth_le_zhalfF_succ (depth : ℕ → ℚ) (Nz : ℕ)
    (hdm : ∀ k, k + 1 < Nz → depth k < depth (k + 1)) :
    ∀ k, k < Nz → depth k ≤ zhalfF depth Nz (k + 1) := by
  intro k hk
  rcases Nat.lt_or_ge (k + 1) Nz with h2 | h2
  · have e : zhalfF depth Nz (k + 1) = (depth k + depth (k + 1)) / 2 := by
      simp only [zhalfF, if_neg (Nat.succ_ne_zero k), if_pos h2, Nat.add_sub_cancel]
    have := hdm k h2
    rw [e]; linarith
  · have hNz : k + 1 = Nz := Nat.le_antisymm hk h2
    rcases Nat.lt_or_ge Nz 2 with hN1 | hN2
    · have hNz1 : Nz = 1 := by omega
      have hk0 : k = 0 := by omega
      subst hk0
      simp only [zhalfF, if_neg (Nat.succ_ne_zero 0), hNz1]
      norm_num
    · have e : zhalfF depth Nz (k + 1) =
          depth (Nz - 1) + (depth (Nz - 1) - depth (Nz - 2)) / 2 := by
        simp only [zhalfF, if_neg (Nat.succ_ne_zero k), if_neg (by omega : ¬ k + 1 < Nz),
          if_pos hN2]
      have hkk : k = Nz - 1 := by omega
      have hlt : depth (Nz - 2) < depth (Nz - 1) := by
        have := hdm (Nz - 2) (by omega)
        have h22 : Nz - 2 + 1 = Nz - 1 := by omega
        rwa [h22] at this
      rw [e, hkk]
      linarith

/-! ## Vertical column diagnostics `ml_avg_Tb_Tz_sfc` (source lines 105–187) -/

/-- Python array indexing: a negative index counts from the end of an array
of length `n` (`a[-1]` is `a[n-1]`).  Used because the boundary-pair index
underflows to `-1` for a single-valid-level column. -/
def pyIdx (n : ℕ) (i : ℤ) : ℕ :=
  (if i < 0 then i + n else i).toNat

/-- `np.searchsorted(a[:n], v, side='right')` on a sorted array: the length
of the maximal prefix of `a[:n]` whose entries are `≤ v`, scanned from
index `k` with `fuel` entries remaining.  (numpy performs a binary search,
which on sorted input returns exactly this count; the depth array is
strictly increasing by the data-model invariant.) -/
def ssrGo (a : ℕ → ℚ) (v : ℚ) : ℕ → ℕ → ℕ
  | _, 0 => 0
  | k, fuel + 1 => if a k ≤ v then ssrGo a v (k + 1) fuel + 1 else 0

/-- `np.searchsorted(a[:n], v, side='right')` for sorted `a`. -/
def searchsortedRight (a : ℕ → ℚ) (n : ℕ) (v : ℚ) : ℕ :=
  ssrGo a v 0 n

/-- The boundary-pair index: `pos = searchsorted(depth[:kbot], h, 'right') - 1`
followed by the source's two clamps `if pos < 0: pos = 0` and
`if pos >= kbot-1: pos = kbot-2` (integer arithmetic: for `kbot = 1` this
yields `-1`, a Python index for the last element). -/
def posClamped (depth : ℕ → ℚ) (kbot : ℕ) (h : ℚ) : ℤ :=
  let p1 : ℤ := (searchsortedRight depth kbot h : ℤ) - 1
  let p2 : ℤ := if p1 < 0 then 0 else p1
  if (kbot : ℤ) - 1 ≤ p2 then (kbot : ℤ) - 2 else p2

/-- The mixed-layer depth after the source's cap to the deepest valid
center: `hmax = depth[kbot-1]; if h > hmax: h = hmax`. -/
def hClip (depth : ℕ → ℚ) (kbot : ℕ) (h0 : ℚ) : ℚ :=
  if depth (kbot - 1) < h0 then depth (kbot - 1) else h0

/-- The overlap-weight accumulation loop (source lines 158–166), for one of
the three accumulators (`ts`, `us`, `vs` share the loop whose control flow
depends only on `h` and `zhalf`, so the single loop is embedded as three
instances of this recursion):
`for k in range(kbot): zl, zh = zhalf[k], zhalf[k+1];
 if h <= zl: break; w = min(h, zh) - zl; if w > 0: acc += vals[k]*w`. -/
def overlapGo (vals : ℕ → Val) (zh : ℕ → ℚ) (h : ℚ) : ℕ → ℕ → Val
  | _, 0 => Val.num 0
  | k, fuel + 1 =>
    if h ≤ zh k then Val.num 0
    else
      (if 0 < (if h ≤ zh (k + 1) then h else zh (k + 1)) - zh k then
        vals k * Val.num ((if h ≤ zh (k + 1) then h else zh (k + 1)) - zh k)
      else Val.num 0) + overlapGo vals zh h (k + 1) fuel

/-- The six per-column outputs of the vertical column diagnostics. -/
structure ColOut where
  Tm : Val
  Um : Val
  Vm : Val
  Tb : Val
  TzH : Val
  T0 : Val

/-- All-sentinel column output (land / invalid columns are skipped, leaving
the `np.full(..., nan)` initialisation in place). -/
def ColOut.allNan : ColOut :=
  ⟨Val.nan, Val.nan, Val.nan, Val.nan, Val.nan, Val.nan⟩

/-- One column of `ml_avg_Tb_Tz_sfc` (source lines 134–186): guards for
land (`kbot ≤ 0`) and non-finite / non-positive `h`; cap of `h` to the
deepest valid center; surface extrapolation from the top two levels;
overlap-weighted means; boundary interpolation with the degenerate-pair
fallback `Tb = Tm`, `Tz = 0`. -/
def mlCol (Tc Uc Vc : ℕ → Val) (hIn : Val) (depth : ℕ → ℚ) (Nz kbot : ℕ) :
    ColOut :=
  if kbot = 0 then ColOut.allNan
  else
    match hIn with
    | Val.nan => ColOut.allNan
    | Val.num h0 =>
      if h0 ≤ 0 then ColOut.allNan
      else
        let h := hClip depth kbot h0
        let zh := zhalfF depth Nz
        let t0a : Val :=
          if 2 ≤ kbot ∧ (Tc 0).isfinite ∧ (Tc 1).isfinite ∧ depth 0 < depth 1 then
            Tc 0 - (Tc 1 - Tc 0) / Val.num (depth 1 - depth 0) * Val.num (depth 0)
          else Val.nan
        let t0 := if t0a.isfinite then t0a else Tc 0
        let ts := overlapGo Tc zh h 0 kbot
        let us := overlapGo Uc zh h 0 kbot
        let vs := overlapGo Vc zh h 0 kbot
        let TmV := if 0 < h then ts / Val.num h else Val.nan
        let UmV := if 0 < h then us / Val.num h else Val.nan
        let VmV := if 0 < h then vs / Val.num h else Val.nan
        let pos := posClamped depth kbot h
        let zlo := depth (pyIdx Nz pos)
        let zhi := depth (pyIdx Nz (pos + 1))
        let tlo := Tc (pyIdx Nz pos)
        let thi := Tc (pyIdx Nz (pos + 1))
        if zlo < zhi ∧ tlo.isfinite ∧ thi.isfinite then
          ⟨TmV, UmV, VmV,
            tlo + Val.num ((h - zlo) / (zhi - zlo)) * (thi - tlo),
            (thi - tlo) / Val.num (zhi - zlo), t0⟩
        else
          ⟨TmV, UmV, VmV, TmV, Val.num 0, t0⟩

/-- The six 2-D output fields of the vertical column diagnostics. -/
structure GridOut where
  Tm : Arr2
  Um : Arr2
  Vm : Arr2
  Tb : Arr2
  TzH : Arr2
  T0 : Arr2

/-- One grid column of the diagnostics, at `(j, i)`. -/
def mlAt (T3d U3d V3d : Arr3) (H2d : Arr2) (depth : ℕ → ℚ) (Nz : ℕ)
    (topo : ℕ → ℕ → ℕ) (j i : ℕ) : ColOut :=
  mlCol (fun k => T3d k j i) (fun k => U3d k j i) (fun k => V3d k j i)
    (H2d j i) depth Nz (topo j i)

/-- The grid-level diagnostics `ml_avg_Tb_Tz_sfc`: every column is computed
independently; land and invalid columns keep the `nan` initialisation. -/
def ml_avg_Tb_Tz_sfc (T3d U3d V3d : Arr3) (H2d : Arr2) (depth : ℕ → ℚ)
    (Nz : ℕ) (topo : ℕ → ℕ → ℕ) : GridOut :=
  { Tm := fun j i => (mlAt T3d U3d V3d H2d depth Nz topo j i).Tm
    Um := fun j i => (mlAt T3d U3d V3d H2d depth Nz topo j i).Um
    Vm := fun j i => (mlAt T3d U3d V3d H2d depth Nz topo j i).Vm
    Tb := fun j i => (mlAt T3d U3d V3d H2d depth Nz topo j i).Tb
    TzH := fun j i => (mlAt T3d U3d V3d H2d depth Nz topo j i).TzH
    T0 := fun j i => (mlAt T3d U3d V3d H2d depth Nz topo j i).T0 }

/-- The input arrays of the vertical column diagnostics, threaded through
the call as a store so the frame property (the function reads but never
assigns into its inputs; the cap of `h` rebinds a local) is statable. -/
structure MLState where
  T : Arr3
  U : Arr3
  V : Arr3
  H : Arr2
  depth : ℕ → ℚ
  Nz : ℕ
  topo : ℕ → ℕ → ℕ

/-- The diagnostics as a state transformer: the source assigns only into
the freshly allocated output arrays (`np.full`) and into function-local
scalars, never into an element of `T3d`, `U3d`, `V3d`, `H2d`, `depth` or
`topo`, so the store component is returned as received. -/
def ml_run (s : MLState) : MLState × GridOut :=
  (s, ml_avg_Tb_Tz_sfc s.T s.U s.V s.H s.depth s.Nz s.topo)

/-! ## Budget term assembler and daily sequencer (source lines 190–407) -/

/-- The four entrainment-velocity modes (`--we-mode`). -/
inductive WeMode where
  | dhdt : WeMode
  | centered : WeMode
  | deepening : WeMode
  | full : WeMode
deriving DecidableEq

/-- The configuration surface of `process_year` (all optionals kept). -/
structure Config where
  ah : ℚ
  kv : ℚ
  use_hbar_denom : Bool
  hmin : ℚ
  we_mode : WeMode
  we_cap_md : Option ℚ
  ent_only_cooling : Bool
  dT_cap : Option ℚ
  ent_cap_kpd : Option ℚ

/-- Default configuration: `ah=100, kv=1e-4, hmin=10`, instantaneous
denominator, `we_mode="dhdt"`, no caps, `ent_only_cooling=True`. -/
def Config.default : Config :=
  ⟨100, 1 / 10000, false, 10, WeMode.dhdt, none, true, none, none⟩

/-- Run-constant environment: grid sizes, depth levels, bottom topography,
grid metrics, and the abstract exponential (see the module comment). -/
structure Env where
  Nz : ℕ
  Ny : ℕ
  Nx : ℕ
  depth : ℕ → ℚ
  topo : ℕ → ℕ → ℕ
  dy : ℚ
  dx_row : ℕ → ℚ
  expQ : ℚ → ℚ

/-- One day's input arrays from the persistence adapter. -/
structure DayIn where
  T : Arr3
  U : Arr3
  V : Arr3
  H : Arr2

/-- One transition day's surface-flux inputs (into-ocean positive). -/
structure FluxIn where
  sw : Arr2
  lw : Arr2
  lhf : Arr2
  shf : Arr2

/-- The rolling three-day window of the daily sequencer. -/
structure Roll where
  Tm_prev : Option Arr2
  Tm_prev_prev : Option Arr2
  H_prev : Option Arr2

/-- The per-day output record (the fields appended to the per-year
stores, in source order). -/
structure DayOut where
  Tm : Arr2
  Tb : Arr2
  T0z : Arr2
  Um : Arr2
  Vm : Arr2
  MLD : Arr2
  TEN_F : Arr2
  TEN_C : Arr2
  ADV : Arr2
  QNET : Arr2
  ENT : Arr2
  DIFF : Arr2
  DIFFV : Arr2
  CLOSF : Arr2
  CLOSC : Arr2

/-- `np.exp` lifted to cells through the abstract finite-value exponential. -/
def vexp (expQ : ℚ → ℚ) : Val → Val
  | Val.nan => Val.nan
  | Val.num a => Val.num (expQ a)

/-- Topography from day 0 (source lines 242–247): the first vertical index
whose temperature is non-finite, else `Nz`. -/
def computeTopo (T0 : Arr3) (Nz : ℕ) : ℕ → ℕ → ℕ := fun j i =>
  (((List.range Nz).find? (fun k => ! (T0 k j i).isfinite)).getD Nz)

/-- The thickness denominator (source lines 298–303):
`Hc = np.where(H0 < hmin, hmin, H0)`, and with the averaged convention
`hden = 0.5*(Hc + Hn)` with `Hn = np.where(H1 < hmin, hmin, H1)`. -/
def hdenF (cfg : Config) (H0 H1 : Arr2) : Arr2 := fun j i =>
  let floorAt : Val → Val := fun x =>
    match x with
    | Val.nan => Val.nan
    | Val.num q => if q < cfg.hmin then Val.num cfg.hmin else Val.num q
  if cfg.use_hbar_denom then
    Val.num (1 / 2) * (floorAt (H0 j i) + floorAt (H1 j i))
  else floorAt (H0 j i)

/-- `QNET` (source lines 306–307): net surface flux minus the shortwave
fraction transmitted past the mixed-layer base (two-band exponential),
divided by `RHO*CP*hden`. -/
def qnetField (env : Env) (fx : FluxIn) (H0 hden : Arr2) : Arr2 := fun j i =>
  let Qnet_sfc := fx.sw j i + fx.lw j i + fx.lhf j i + fx.shf j i
  let qh := fx.sw j i *
    (Val.num R_SW * vexp env.expQ (-(H0 j i) / Val.num GAM1) +
     Val.num (1 - R_SW) * vexp env.expQ (-(H0 j i) / Val.num GAM2))
  (Qnet_sfc - qh) / (Val.num (RHO * CP) * hden j i)

/-- The mixed-layer-depth tendency `ht` (source lines 314–317): a centered
difference when `we_mode == "centered"` and a previous day's depth is held,
else the forward difference `(H1 - H0)/DT`. -/
def htF (cfg : Config) (roll : Roll) (H0 H1 : Arr2) : Arr2 := fun j i =>
  match cfg.we_mode, roll.H_prev with
  | WeMode.centered, some Hp => (H1 j i - Hp j i) / Val.num (2 * DT)
  | _, _ => (H1 j i - H0 j i) / Val.num DT

/-- The capped entrainment velocity `we_use` (source lines 313–326):
mode selection over `we_dhdt = ht` and `we_div = div(h·(Um,Vm))`, the
`deepening` positive-part filter (`np.where(x > 0, x, 0)`), and the
optional clip to `±we_cap_md/86400`. -/
def weField (cfg : Config) (env : Env) (roll : Roll) (H0 H1 Um Vm : Arr2) :
    Arr2 := fun j i =>
  let ht := htF cfg roll H0 H1 j i
  let div_hu := ddx_c (fun j i => H0 j i * Um j i) env.dx_row env.Nx j i
  let div_hv := ddy_c (fun j i => H0 j i * Vm j i) env.dy env.Ny j i
  let we_use :=
    match cfg.we_mode with
    | WeMode.dhdt => ht
    | WeMode.deepening =>
      if Val.lt (Val.num 0) (ht + (div_hu + div_hv)) then ht + (div_hu + div_hv)
      else Val.num 0
    | _ => ht + (div_hu + div_hv)
  match cfg.we_cap_md with
  | none => we_use
  | some c => Val.clip we_use (Val.num (-(c / 86400))) (Val.num (c / 86400))

/-- The optional `ΔT` magnitude cap for entrainment (source lines 329–332):
`dT_eff = np.clip(dT, -abs(dT_cap), abs(dT_cap))` when configured. -/
def dTeff (cfg : Config) (dT : Arr2) : Arr2 := fun j i =>
  match cfg.dT_cap with
  | none => dT j i
  | some c => Val.clip (dT j i) (Val.num (-|c|)) (Val.num |c|)

/-- The entrainment-only-cooling zeroing (source lines 335–336):
`ENT = np.where(ENT < 0, ENT, 0)` when the flag is set. -/
def entCool (cfg : Config) (x : Val) : Val :=
  if cfg.ent_only_cooling then
    if Val.lt x (Val.num 0) then x else Val.num 0
  else x

/-- The optional entrainment-rate cap (source lines 337–339):
`np.clip(ENT, -cap_s, 0 if ent_only_cooling else cap_s)`. -/
def entCap (cfg : Config) (x : Val) : Val :=
  match cfg.ent_cap_kpd with
  | none => x
  | some c =>
    Val.clip x (Val.num (-(c / 86400)))
      (if cfg.ent_only_cooling then Val.num 0 else Val.num (c / 86400))

/-- The emitted entrainment term (source lines 328–339):
`ENT = -(we_use/hden)*dT_eff`, then the cooling-only zeroing, then the
optional rate cap. -/
def entField (cfg : Config) (we hden dT : Arr2) : Arr2 := fun j i =>
  entCap cfg (entCool cfg (-(we j i / hden j i) * dTeff cfg dT j i))

/-- Horizontal diffusion (source lines 342–357): conservative stencil on
interior cells whose `Tm` and `H0` are finite; everything else keeps the
`nan` initialisation. -/
def diffField (cfg : Config) (env : Env) (H0 Tm dT hden : Arr2) : Arr2 :=
  fun j i =>
  if 1 ≤ j ∧ j + 1 < env.Ny ∧ 1 ≤ i ∧ i + 1 < env.Nx then
    if (Tm j i).isfinite ∧ (H0 j i).isfinite then
      let dxj := env.dx_row j
      let hTx_ip := H0 j (i + 1) * (Tm j (i + 1) - Tm j i) / Val.num dxj
      let hTx_im := H0 j i * (Tm j i - Tm j (i - 1)) / Val.num dxj
      let dThx_ip := dT j (i + 1) * (H0 j (i + 1) - H0 j i) / Val.num dxj
      let dThx_im := dT j i * (H0 j i - H0 j (i - 1)) / Val.num dxj
      let hTy_jp := H0 (j + 1) i * (Tm (j + 1) i - Tm j i) / Val.num env.dy
      let hTy_jm := H0 j i * (Tm j i - Tm (j - 1) i) / Val.num env.dy
      let dThy_jp := dT (j + 1) i * (H0 (j + 1) i - H0 j i) / Val.num env.dy
      let dThy_jm := dT j i * (H0 j i - H0 (j - 1) i) / Val.num env.dy
      let div1 := (hTx_ip - hTx_im) / Val.num dxj + (hTy_jp - hTy_jm) / Val.num env.dy
      let div2 := (dThx_ip - dThx_im) / Val.num dxj + (dThy_jp - dThy_jm) / Val.num env.dy
      Val.num cfg.ah / hden j i * (div1 - div2)
    else Val.nan
  else Val.nan

/-- The forward tendency (source lines 363–367): `nan` until a previous
day's mean is held, else `(Tm - Tm_prev)/DT`. -/
def tenF (roll : Roll) (Tm : Arr2) : Arr2 :=
  match roll.Tm_prev with
  | none => fun _ _ => Val.nan
  | some tp => fun j i => (Tm j i - tp j i) / Val.num DT

/-- The "centered" tendency (source lines 363–373): `nan` until both held
means exist, else `(Tm_next - Tm_prev_prev)/(2*DT)` where `Tm_next` is the
day-ahead mixed-layer mean recomputed from the next day's fields. -/
def tenC (env : Env) (roll : Roll) (d1 : DayIn) : Arr2 :=
  match roll.Tm_prev, roll.Tm_prev_prev with
  | some _, some tpp => fun j i =>
    ((ml_avg_Tb_Tz_sfc d1.T d1.U d1.V d1.H env.depth env.Nz env.topo).Tm j i
      - tpp j i) / Val.num (2 * DT)
  | _, _ => fun _ _ => Val.nan

/-- One iteration of the daily loop of `process_year` (source lines
280–405): day-0 fields `d0`, day-1 fields `d1`, the transition day's
fluxes; emits the output record and the advanced rolling window. -/
def dayStep (cfg : Config) (env : Env) (roll : Roll) (d0 d1 : DayIn)
    (fx : FluxIn) : DayOut × Roll :=
  let g0 := ml_avg_Tb_Tz_sfc d0.T d0.U d0.V d0.H env.depth env.Nz env.topo
  let dT : Arr2 := fun j i => g0.Tm j i - g0.Tb j i
  let hden := hdenF cfg d0.H d1.H
  let QNET := qnetField env fx d0.H hden
  let Tmx := ddx_c g0.Tm env.dx_row env.Nx
  let Tmy := ddy_c g0.Tm env.dy env.Ny
  let ADV : Arr2 := fun j i => -(g0.Um j i * Tmx j i + g0.Vm j i * Tmy j i)
  let we := weField cfg env roll d0.H d1.H g0.Um g0.Vm
  let ENT := entField cfg we hden dT
  let DIFF := diffField cfg env d0.H g0.Tm dT hden
  let DIFFV : Arr2 := fun j i => -(Val.num cfg.kv * g0.TzH j i) / hden j i
  let TEN_F := tenF roll g0.Tm
  let TEN_C := tenC env roll d1
  let RHS : Arr2 := fun j i =>
    QNET j i + ADV j i + ENT j i + DIFF j i + DIFFV j i
  let CLOSF : Arr2 := fun j i => TEN_F j i - RHS j i
  let CLOSC : Arr2 := fun j i => TEN_C j i - RHS j i
  (⟨g0.Tm, g0.Tb, g0.T0, g0.Um, g0.Vm, d0.H, TEN_F, TEN_C, ADV, QNET, ENT,
      DIFF, DIFFV, CLOSF, CLOSC⟩,
    ⟨some g0.Tm, roll.Tm_prev, some d0.H⟩)

/-- The daily loop `for ti in range(1, len(files))`, from iteration `ti`
with `fuel` iterations remaining. -/
def runLoop (cfg : Config) (env : Env) (days : ℕ → DayIn)
    (fluxes : ℕ → FluxIn) : ℕ → ℕ → Roll → List DayOut
  | _, 0, _ => []
  | ti, fuel + 1, roll =>
    let step := dayStep cfg env roll (days (ti - 1)) (days ti) (fluxes (ti - 1))
    step.1 :: runLoop cfg env days fluxes (ti + 1) fuel step.2

/-- `process_year`'s per-day outputs: the rolling window starts empty and
the loop runs `len(files) - 1` transitions; record `r` (0-based) holds the
fields of day index `r`. -/
def process_year_run (cfg : Config) (env : Env) (days : ℕ → DayIn)
    (fluxes : ℕ → FluxIn) (nFiles : ℕ) : List DayOut :=
  runLoop cfg env days fluxes 1 (nFiles - 1) ⟨none, none, none⟩

/-! ## Claim C7: centered derivative operators -/

/-- C7: each centered horizontal-derivative operator returns the
not-a-number sentinel on the first and last index along its differenced
axis, and at every interior cell returns exactly
`(field[+1] - field[-1]) / (2*spacing)` — per-row spacing `dx_row[j]` for
`ddx_c`, the scalar `dy` for `ddy_c`. -/
theorem centered_derivative_edges_interior (f : Arr2) (dx_row : ℕ → ℚ)
    (dy : ℚ) (Nx Ny : ℕ) :
    (∀ j, ddx_c f dx_row Nx j 0 = Val.nan) ∧
    (∀ j, ddx_c f dx_row Nx j (Nx - 1) = Val.nan) ∧
    (∀ j i a b, 1 ≤ i → i + 1 < Nx → f j (i + 1) = Val.num a →
      f j (i - 1) = Val.num b → dx_row j ≠ 0 →
      ddx_c f dx_row Nx j i = Val.num ((a - b) / (2 * dx_row j))) ∧
    (∀ i, ddy_c f dy Ny 0 i = Val.nan) ∧
    (∀ i, ddy_c f dy Ny (Ny - 1) i = Val.nan) ∧
    (∀ j i a b, 1 ≤ j → j + 1 < Ny → f (j + 1) i = Val.num a →
      f (j - 1) i = Val.num b → dy ≠ 0 →
      ddy_c f dy Ny j i = Val.num ((a - b) / (2 * dy))) := by
  refine ⟨?_, ?_, ?_, ?_, ?_, ?_⟩
  · intro j; simp [ddx_c]
  · intro j; simp only [ddx_c]
    rw [if_neg (by omega)]
  · intro j i a b h1 h2 ha hb hd
    simp only [ddx_c, if_pos (And.intro h1 h2), ha, hb, Val.num_sub_num,
      Val.num_div_num]
    rw [if_neg (by exact mul_ne_zero two_ne_zero hd)]
  · intro i; simp [ddy_c]
  · intro i; simp only [ddy_c]
    rw [if_neg (by omega)]
  · intro j i a b h1 h2 ha hb hd
    simp only [ddy_c, if_pos (And.intro h1 h2), ha, hb, Val.num_sub_num,
      Val.num_div_num]
    rw [if_neg (by exact mul_ne_zero two_ne_zero hd)]

/-- A linear ramp field for exercising the derivative operators. -/
def rampF : Arr2 := fun j i => Val.num ((i : ℚ) + 2 * (j : ℚ))

theorem centered_derivative_edges_interior_witness :
    ddx_c rampF (fun _ => 1) 3 0 0 = Val.nan ∧
    ddx_c rampF (fun _ => 1) 3 0 2 = Val.nan ∧
    ddx_c rampF (fun _ => 1) 3 0 1 = Val.num 1 ∧
    ddy_c rampF 1 3 0 0 = Val.nan ∧
    ddy_c rampF 1 3 2 0 = Val.nan ∧
    ddy_c rampF 1 3 1 0 = Val.num 2 := by
  have h := centered_derivative_edges_interior rampF (fun _ => 1) 1 3 3
  refine ⟨h.1 0, h.2.1 0, ?_, h.2.2.2.1 0, h.2.2.2.2.1 0, ?_⟩
  · have := h.2.2.1 0 1 2 0 (by omega) (by omega) (by norm_num [rampF])
      (by norm_num [rampF]) (by norm_num)
    rw [this]; norm_num
  · have := h.2.2.2.2.2 1 0 4 0 (by omega) (by omega) (by norm_num [rampF])
      (by norm_num [rampF]) (by norm_num)
    rw [this]; norm_num

/-! ## Claim C8: half-level boundaries strictly increasing -/

/-- C8: for a strictly increasing positive depth array with `Nz ≥ 2`, the
derived half-level array `zhalf[0..Nz]` (zero surface, interior midpoints,
extrapolated bottom) is strictly increasing. -/
theorem zhalf_strictly_increasing (depth : ℕ → ℚ) (Nz : ℕ) (hN : 2 ≤ Nz)
    (hdm : ∀ k, k + 1 < Nz → depth k < depth (k + 1))
    (hdp : ∀ k, k < Nz → 0 < depth k) :
    ∀ k, k < Nz → zhalfF depth Nz k < zhalfF depth Nz (k + 1) :=
  fun k hk => zhalfF_strict_mono depth Nz hdm hdp k hk

/-- A concrete two-level depth array. -/
def depthW2 : ℕ → ℚ := fun k => if k = 0 then 5 else 15

theorem zhalf_strictly_increasing_witness :
    zhalfF depthW2 2 0 < zhalfF depthW2 2 1 ∧
    zhalfF depthW2 2 1 < zhalfF depthW2 2 2 := by
  have h := zhalf_strictly_increasing depthW2 2 (by omega)
    (by intro k hk
        have : k = 0 := by omega
        subst this; norm_num [depthW2])
    (by intro k hk
        interval_cases k <;> norm_num [depthW2])
  exact ⟨h 0 (by omega), h 1 (by omega)⟩

/-! ## Claim C9: the diagnostics never mutate their inputs -/

/-- C9: the vertical column diagnostics, embedded as a state transformer
over the store of its input arrays, returns every input array unchanged:
the source writes only into freshly allocated output arrays and rebinds
the local `h` when clipping (`h = hmax`), never assigning into `T3d`,
`U3d`, `V3d`, `H2d`, `depth` or `topo`. -/
theorem ml_no_mutation (s : MLState) :
    (ml_run s).1.T = s.T ∧ (ml_run s).1.U = s.U ∧ (ml_run s).1.V = s.V ∧
    (ml_run s).1.H = s.H ∧ (ml_run s).1.depth = s.depth ∧
    (ml_run s).1.topo = s.topo :=
  ⟨rfl, rfl, rfl, rfl, rfl, rfl⟩

/-! ## Claim C5: entrainment-only-cooling forces `ENT ≤ 0` -/

/-- Helper: `np.where(x < 0, x, 0)` always yields a non-positive number
(a `nan` input fails the comparison and is replaced by `0`). -/
theorem whereNeg_nonpos (x : Val) :
    ∃ q : ℚ, (if Val.lt x (Val.num 0) then x else Val.num 0) = Val.num q ∧
      q ≤ 0 := by
  cases x with
  | nan => exact ⟨0, by simp, le_refl 0⟩
  | num q =>
    by_cases hq : q < 0
    · exact ⟨q, by simp [hq], le_of_lt hq⟩
    · exact ⟨0, by simp [hq], le_refl 0⟩

/-- Helper: the cooling-only zeroing emits a non-positive number. -/
theorem entCool_nonpos (cfg : Config) (x : Val)
    (hco : cfg.ent_only_cooling = true) :
    ∃ q : ℚ, entCool cfg x = Val.num q ∧ q ≤ 0 := by
  simpa only [entCool, hco, if_true] using whereNeg_nonpos x

/-- Helper: the optional rate cap preserves non-positive numeric values
in the cooling-only configuration (its upper clip bound is `0`). -/
theorem entCap_nonpos (cfg : Config) (q : ℚ)
    (hco : cfg.ent_only_cooling = true) (hq : q ≤ 0) :
    ∃ r : ℚ, entCap cfg (Val.num q) = Val.num r ∧ r ≤ 0 := by
  rcases hcap : cfg.ent_cap_kpd with _ | c
  · exact ⟨q, by simp only [entCap, hcap], hq⟩
  · refine ⟨min (max q (-(c / 86400))) 0, ?_, min_le_right _ _⟩
    simp only [entCap, hcap, hco, if_true, Val.clip_num]

/-- Helper: the entrainment pipeline with the cooling flag set emits a
non-positive number at every cell, for any `we`, `hden`, `dT` fields. -/
theorem entField_nonpos (cfg : Config) (we hden dT : Arr2) (j i : ℕ)
    (hco : cfg.ent_only_cooling = true) :
    ∃ q : ℚ, entField cfg we hden dT j i = Val.num q ∧ q ≤ 0 := by
  obtain ⟨q, hq, hq0⟩ :=
    entCool_nonpos cfg (-(we j i / hden j i) * dTeff cfg dT j i) hco
  obtain ⟨r, hr, hr0⟩ := entCap_nonpos cfg q hco hq0
  exact ⟨r, by rw [entField, hq, hr], hr0⟩

/-- C5: with `ent_only_cooling = True`, the emitted entrainment term of
every cell of every day step is a number `≤ 0`: the `np.where` zeroing
replaces any non-negative (or `nan`) value by `0`, and the optional rate
cap then clips into an upper bound of `0`. -/
theorem ent_only_cooling_nonpositive (cfg : Config) (env : Env) (roll : Roll)
    (d0 d1 : DayIn) (fx : FluxIn) (j i : ℕ)
    (hco : cfg.ent_only_cooling = true) :
    ∃ q : ℚ, (dayStep cfg env roll d0 d1 fx).1.ENT j i = Val.num q ∧
      q ≤ 0 := by
  exact entField_nonpos cfg
    (weField cfg env roll d0.H d1.H
      (ml_avg_Tb_Tz_sfc d0.T d0.U d0.V d0.H env.depth env.Nz env.topo).Um
      (ml_avg_Tb_Tz_sfc d0.T d0.U d0.V d0.H env.depth env.Nz env.topo).Vm)
    (hdenF cfg d0.H d1.H)
    (fun j i =>
      (ml_avg_Tb_Tz_sfc d0.T d0.U d0.V d0.H env.depth env.Nz env.topo).Tm j i -
      (ml_avg_Tb_Tz_sfc d0.T d0.U d0.V d0.H env.depth env.Nz env.topo).Tb j i)
    j i hco

/-- A minimal all-ocean single-cell environment. -/
def envW : Env := ⟨1, 1, 1, fun _ => 10, fun _ _ => 1, 1, fun _ => 1, fun _ => 1⟩

/-- A single-cell ocean day: one finite level, warm water, `h = 5`. -/
def dayW : DayIn :=
  ⟨fun _ _ _ => Val.num 20, fun _ _ _ => Val.num 0, fun _ _ _ => Val.num 0,
    fun _ _ => Val.num 5⟩

/-- Zero surface fluxes. -/
def zeroFlux : FluxIn :=
  ⟨fun _ _ => Val.num 0, fun _ _ => Val.num 0, fun _ _ => Val.num 0,
    fun _ _ => Val.num 0⟩

theorem ent_only_cooling_nonpositive_witness :
    ∃ q : ℚ,
      (dayStep Config.default envW ⟨none, none, none⟩ dayW dayW zeroFlux).1.ENT
        0 0 = Val.num q ∧ q ≤ 0 :=
  ent_only_cooling_nonpositive Config.default envW ⟨none, none, none⟩ dayW
    dayW zeroFlux 0 0 rfl

/-! ## Claim C6: entrainment-velocity capping -/

/-- Helper: a symmetric `np.clip` bounds the magnitude of any numeric
result. -/
theorem clip_abs_le (x : Val) (c q : ℚ) (hc : 0 ≤ c)
    (h : Val.clip x (Val.num (-c)) (Val.num c) = Val.num q) : |q| ≤ c := by
  cases x with
  | nan => simp at h
  | num a =>
    rw [Val.clip_num] at h
    have hq : q = min (max a (-c)) c := by
      have := h
      injection this with h2
      exact h2.symm
    refine abs_le.mpr ⟨?_, ?_⟩
    · rw [hq]
      exact le_min (le_max_right a (-c)) (by linarith)
    · rw [hq]
      exact min_le_right _ _

/-- C6: for any configured cap `we_cap_md ≥ 0` and under every entrainment
mode, every cell of the capped entrainment velocity that is a number
satisfies `|w_e| ≤ we_cap_md/86400` (cells that are `nan` carry the
land/undefined sentinel and are excluded from the magnitude claim). -/
theorem we_cap_bound (cfg : Config) (env : Env) (roll : Roll)
    (H0 H1 Um Vm : Arr2) (j i : ℕ) (c q : ℚ)
    (hcap : cfg.we_cap_md = some c) (hc : 0 ≤ c)
    (hw : weField cfg env roll H0 H1 Um Vm j i = Val.num q) :
    |q| ≤ c / 86400 := by
  simp only [weField, hcap] at hw
  exact clip_abs_le _ _ _ (by positivity) hw

/-- Configuration with a 1 m/day entrainment-velocity cap. -/
def cfgW6 : Config :=
  ⟨100, 1 / 10000, false, 10, WeMode.dhdt, some 1, true, none, none⟩

theorem we_cap_bound_witness : |(1 / 86400 : ℚ)| ≤ 1 / 86400 :=
  we_cap_bound cfgW6 envW ⟨none, none, none⟩ (fun _ _ => Val.num 0)
    (fun _ _ => Val.num 864000) (fun _ _ => Val.num 0) (fun _ _ => Val.num 0)
    0 0 1 (1 / 86400) rfl (by norm_num) (by with_unfolding_all rfl)

/-! ## Claim C2: land columns -/

/-- Helper: a land column (`bottom_index = 0`) is skipped by the
diagnostics, leaving every per-column output at the sentinel. -/
theorem mlAt_land (T U V : Arr3) (H : Arr2) (depth : ℕ → ℚ) (Nz : ℕ)
    (topo : ℕ → ℕ → ℕ) (j i : ℕ) (h : topo j i = 0) :
    mlAt T U V H depth Nz topo j i = ColOut.allNan := by
  simp [mlAt, mlCol, h]

/-- C2 (amended): for a land column (`bottom_index = 0`, sentinel
mixed-layer depth) every emitted field is the not-a-number sentinel —
except `ENT`, which under `ent_only_cooling = True` is `0`, because the
sentinel fails the `ENT < 0` comparison inside `np.where(ENT < 0, ENT, 0)`
and is replaced by the zero branch. -/
theorem land_columns_sentinel_except_ent (cfg : Config) (env : Env)
    (roll : Roll) (d0 d1 : DayIn) (fx : FluxIn) (j i : ℕ)
    (hco : cfg.ent_only_cooling = true) (htp : env.topo j i = 0)
    (hH : d0.H j i = Val.nan) :
    (ml_avg_Tb_Tz_sfc d0.T d0.U d0.V d0.H env.depth env.Nz env.topo).Tm j i = Val.nan ∧
    (ml_avg_Tb_Tz_sfc d0.T d0.U d0.V d0.H env.depth env.Nz env.topo).Um j i = Val.nan ∧
    (ml_avg_Tb_Tz_sfc d0.T d0.U d0.V d0.H env.depth env.Nz env.topo).Vm j i = Val.nan ∧
    (ml_avg_Tb_Tz_sfc d0.T d0.U d0.V d0.H env.depth env.Nz env.topo).Tb j i = Val.nan ∧
    (ml_avg_Tb_Tz_sfc d0.T d0.U d0.V d0.H env.depth env.Nz env.topo).TzH j i = Val.nan ∧
    (ml_avg_Tb_Tz_sfc d0.T d0.U d0.V d0.H env.depth env.Nz env.topo).T0 j i = Val.nan ∧
    (dayStep cfg env roll d0 d1 fx).1.MLD j i = Val.nan ∧
    (dayStep cfg env roll d0 d1 fx).1.TEN_F j i = Val.nan ∧
    (dayStep cfg env roll d0 d1 fx).1.TEN_C j i = Val.nan ∧
    (dayStep cfg env roll d0 d1 fx).1.ADV j i = Val.nan ∧
    (dayStep cfg env roll d0 d1 fx).1.QNET j i = Val.nan ∧
    (dayStep cfg env roll d0 d1 fx).1.ENT j i = Val.num 0 ∧
    (dayStep cfg env roll d0 d1 fx).1.DIFF j i = Val.nan ∧
    (dayStep cfg env roll d0 d1 fx).1.DIFFV j i = Val.nan ∧
    (dayStep cfg env roll d0 d1 fx).1.CLOSF j i = Val.nan ∧
    (dayStep cfg env roll d0 d1 fx).1.CLOSC j i = Val.nan := by
  obtain ⟨tp, tpp, hp⟩ := roll
  have hcol := mlAt_land d0.T d0.U d0.V d0.H env.depth env.Nz env.topo j i htp
  have hcol1 := mlAt_land d1.T d1.U d1.V d1.H env.depth env.Nz env.topo j i htp
  have hTm : (ml_avg_Tb_Tz_sfc d0.T d0.U d0.V d0.H env.depth env.Nz env.topo).Tm j i = Val.nan := by
    simp [ml_avg_Tb_Tz_sfc, hcol, ColOut.allNan]
  have hUm : (ml_avg_Tb_Tz_sfc d0.T d0.U d0.V d0.H env.depth env.Nz env.topo).Um j i = Val.nan := by
    simp [ml_avg_Tb_Tz_sfc, hcol, ColOut.allNan]
  have hVm : (ml_avg_Tb_Tz_sfc d0.T d0.U d0.V d0.H env.depth env.Nz env.topo).Vm j i = Val.nan := by
    simp [ml_avg_Tb_Tz_sfc, hcol, ColOut.allNan]
  have hTb : (ml_avg_Tb_Tz_sfc d0.T d0.U d0.V d0.H env.depth env.Nz env.topo).Tb j i = Val.nan := by
    simp [ml_avg_Tb_Tz_sfc, hcol, ColOut.allNan]
  have hTz : (ml_avg_Tb_Tz_sfc d0.T d0.U d0.V d0.H env.depth env.Nz env.topo).TzH j i = Val.nan := by
    simp [ml_avg_Tb_Tz_sfc, hcol, ColOut.allNan]
  have hT0 : (ml_avg_Tb_Tz_sfc d0.T d0.U d0.V d0.H env.depth env.Nz env.topo).T0 j i = Val.nan := by
    simp [ml_avg_Tb_Tz_sfc, hcol, ColOut.allNan]
  have hTm1 : (ml_avg_Tb_Tz_sfc d1.T d1.U d1.V d1.H env.depth env.Nz env.topo).Tm j i = Val.nan := by
    simp [ml_avg_Tb_Tz_sfc, hcol1, ColOut.allNan]
  have hhd : hdenF cfg d0.H d1.H j i = Val.nan := by
    cases hb : cfg.use_hbar_denom <;> simp [hdenF, hH, hb]
  have hTENF : tenF ⟨tp, tpp, hp⟩
      (ml_avg_Tb_Tz_sfc d0.T d0.U d0.V d0.H env.depth env.Nz env.topo).Tm j i
      = Val.nan := by
    cases tp <;> simp [tenF, hTm]
  have hTENC : tenC env ⟨tp, tpp, hp⟩ d1 j i = Val.nan := by
    cases tp <;> cases tpp <;> simp [tenC, hTm1]
  have hQ : qnetField env fx d0.H (hdenF cfg d0.H d1.H) j i = Val.nan := by
    simp [qnetField, hhd]
  have hADV : -((ml_avg_Tb_Tz_sfc d0.T d0.U d0.V d0.H env.depth env.Nz env.topo).Um j i *
        ddx_c (ml_avg_Tb_Tz_sfc d0.T d0.U d0.V d0.H env.depth env.Nz env.topo).Tm env.dx_row env.Nx j i +
      (ml_avg_Tb_Tz_sfc d0.T d0.U d0.V d0.H env.depth env.Nz env.topo).Vm j i *
        ddy_c (ml_avg_Tb_Tz_sfc d0.T d0.U d0.V d0.H env.depth env.Nz env.topo).Tm env.dy env.Ny j i)
      = Val.nan := by
    simp [hUm, hVm]
  have hENT : entField cfg
      (weField cfg env ⟨tp, tpp, hp⟩ d0.H d1.H
        (ml_avg_Tb_Tz_sfc d0.T d0.U d0.V d0.H env.depth env.Nz env.topo).Um
        (ml_avg_Tb_Tz_sfc d0.T d0.U d0.V d0.H env.depth env.Nz env.topo).Vm)
      (hdenF cfg d0.H d1.H)
      (fun j i => (ml_avg_Tb_Tz_sfc d0.T d0.U d0.V d0.H env.depth env.Nz env.topo).Tm j i -
        (ml_avg_Tb_Tz_sfc d0.T d0.U d0.V d0.H env.depth env.Nz env.topo).Tb j i)
      j i = Val.num 0 := by
    have hdT : dTeff cfg
        (fun j i => (ml_avg_Tb_Tz_sfc d0.T d0.U d0.V d0.H env.depth env.Nz env.topo).Tm j i -
          (ml_avg_Tb_Tz_sfc d0.T d0.U d0.V d0.H env.depth env.Nz env.topo).Tb j i)
        j i = Val.nan := by
      cases hc : cfg.dT_cap <;> simp [dTeff, hc, hTm, hTb]
    have hcool : entCool cfg Val.nan = Val.num 0 := by
      simp [entCool, hco]
    have hcap : entCap cfg (Val.num 0) = Val.num 0 := by
      cases hc : cfg.ent_cap_kpd with
      | none => simp [entCap, hc]
      | some c =>
        simp only [entCap, hc, hco, if_true, Val.clip_num]
        have : min (max 0 (-(c / 86400))) 0 = 0 :=
          min_eq_right (le_max_left 0 _)
        rw [this]
    rw [entField, hdT]
    rw [Val.mul_nan, hcool, hcap]
  have hDIFF : diffField cfg env d0.H
      (ml_avg_Tb_Tz_sfc d0.T d0.U d0.V d0.H env.depth env.Nz env.topo).Tm
      (fun j i => (ml_avg_Tb_Tz_sfc d0.T d0.U d0.V d0.H env.depth env.Nz env.topo).Tm j i -
        (ml_avg_Tb_Tz_sfc d0.T d0.U d0.V d0.H env.depth env.Nz env.topo).Tb j i)
      (hdenF cfg d0.H d1.H) j i = Val.nan := by
    rw [diffField]
    split
    · rw [if_neg]
      simp [hTm]
    · rfl
  have hDIFFV : -(Val.num cfg.kv *
        (ml_avg_Tb_Tz_sfc d0.T d0.U d0.V d0.H env.depth env.Nz env.topo).TzH j i) /
      hdenF cfg d0.H d1.H j i = Val.nan := by
    simp [hTz]
  refine ⟨hTm, hUm, hVm, hTb, hTz, hT0, hH, hTENF, hTENC, hADV, hQ, hENT,
    hDIFF, hDIFFV, ?_, ?_⟩
  · show tenF ⟨tp, tpp, hp⟩ _ j i - _ = Val.nan
    rw [hTENF, Val.nan_sub]
  · show tenC env ⟨tp, tpp, hp⟩ d1 j i - _ = Val.nan
    rw [hTENC, Val.nan_sub]

/-- An all-sentinel (land) day. -/
def landDay : DayIn :=
  ⟨fun _ _ _ => Val.nan, fun _ _ _ => Val.nan, fun _ _ _ => Val.nan,
    fun _ _ => Val.nan⟩

/-- Single-cell environment whose topography is derived from the land
day's temperature field (first non-finite level is index 0). -/
def envLand : Env :=
  ⟨1, 1, 1, fun _ => 10, computeTopo landDay.T 1, 1, fun _ => 1, fun _ => 1⟩

/-- C2 counterexample: at a land column (`bottom_index = 0`), the emitted
`ENT` record of the first processed day is `0`, not the not-a-number
sentinel, under the default configuration (`ent_only_cooling = True`). -/
theorem land_ent_not_sentinel_cex :
    envLand.topo 0 0 = 0 ∧
    ((process_year_run Config.default envLand (fun _ => landDay)
        (fun _ => zeroFlux) 3).get? 0).map (fun o => o.ENT 0 0)
      = some (Val.num 0) ∧
    Val.num 0 ≠ Val.nan := by
  refine ⟨by with_unfolding_all rfl, by with_unfolding_all rfl, ?_⟩
  intro h
  exact Val.noConfusion h

theorem land_columns_sentinel_except_ent_witness :
    (ml_avg_Tb_Tz_sfc landDay.T landDay.U landDay.V landDay.H envLand.depth
      envLand.Nz envLand.topo).Tm 0 0 = Val.nan ∧
    (dayStep Config.default envLand ⟨none, none, none⟩ landDay landDay
      zeroFlux).1.QNET 0 0 = Val.nan ∧
    (dayStep Config.default envLand ⟨none, none, none⟩ landDay landDay
      zeroFlux).1.ENT 0 0 = Val.num 0 := by
  obtain ⟨h1, h2, h3, h4, h5, h6, h7, h8, h9, h10, h11, h12, h13, h14, h15,
      h16⟩ :=
    land_columns_sentinel_except_ent Config.default envLand ⟨none, none, none⟩
      landDay landDay zeroFlux 0 0 rfl (by with_unfolding_all rfl) rfl
  exact ⟨h1, h11, h12⟩

/-! ## Claim C1: the "centered" tendency -/

/-- Days with a linearly growing temperature (1 K per day), one ocean
level, constant mixed-layer depth 5 m. -/
def daysLin : ℕ → DayIn := fun d =>
  ⟨fun _ _ _ => Val.num (d : ℚ), fun _ _ _ => Val.num 0,
    fun _ _ _ => Val.num 0, fun _ _ => Val.num 5⟩

/-- Single-cell environment for the linear-temperature run. -/
def envLin : Env :=
  ⟨1, 1, 1, fun _ => 10, computeTopo (daysLin 0).T 1, 1, fun _ => 1,
    fun _ => 1⟩

/-- C1 (code bug): on a four-day run with `Tm` growing exactly 1 K/day,
the record emitted for day index 2 carries `TEN_C = 3/(2·Δt)` — the code
computes `(Tm_next - Tm_prev_prev)/(2Δt)`, which spans the three days
from day 0 to day 3 — whereas a centered difference at the emitted day
(`(Tm₃ - Tm₁)/(2Δt)`, the claim's formula) equals `2/(2·Δt)`.  The last
conjunct separates the two values. -/
theorem centered_tendency_spans_three_days :
    ((process_year_run Config.default envLin daysLin (fun _ => zeroFlux)
        4).get? 2).map (fun o => o.TEN_C 0 0) = some (Val.num (1 / 57600)) ∧
    ((process_year_run Config.default envLin daysLin (fun _ => zeroFlux)
        4).get? 2).map (fun o => o.Tm 0 0) = some (Val.num 2) ∧
    ((process_year_run Config.default envLin daysLin (fun _ => zeroFlux)
        4).get? 1).map (fun o => o.Tm 0 0) = some (Val.num 1) ∧
    (ml_avg_Tb_Tz_sfc (daysLin 3).T (daysLin 3).U (daysLin 3).V (daysLin 3).H
        envLin.depth envLin.Nz envLin.topo).Tm 0 0 = Val.num 3 ∧
    Val.num (1 / 57600) ≠ Val.num ((3 - 1) / (2 * DT)) := by
  refine ⟨by with_unfolding_all rfl, by with_unfolding_all rfl,
    by with_unfolding_all rfl, by with_unfolding_all rfl, ?_⟩
  intro h
  have h2 := Val.num.inj h
  norm_num [DT] at h2

/-! ## Claims C3/C10: overlap weights and mixed-layer means -/

/-- The spec-side overlap weight of level `k`:
`w_k = min(h, zhalf[k+1]) - zhalf[k]`, taken as `0` once `zhalf[k] ≥ h`. -/
def wSpec (zh : ℕ → ℚ) (h : ℚ) (k : ℕ) : ℚ :=
  if h ≤ zh k then 0 else min h (zh (k + 1)) - zh k

/-- The accumulation loop evaluates to the weighted sum over the valid
levels of the spec-side weights, for finite level values and strictly
increasing half-levels (the early `break` and the `w > 0` guard drop only
zero-weight terms). -/
theorem overlapGo_eq_sum (vals : ℕ → Val) (vq : ℕ → ℚ) (zh : ℕ → ℚ)
    (h : ℚ) :
    ∀ fuel k0,
      (∀ m, m < fuel → vals (k0 + m) = Val.num (vq (k0 + m))) →
      (∀ m, m < fuel → zh (k0 + m) < zh (k0 + m + 1)) →
      overlapGo vals zh h k0 fuel
        = Val.num (∑ m in Finset.range fuel,
            vq (k0 + m) * wSpec zh h (k0 + m)) := by
  intro fuel
  induction fuel with
  | zero => intro k0 _ _; simp [overlapGo]
  | succ n ih =>
    intro k0 hv hmono
    have hif : (if h ≤ zh (k0 + 1) then h else zh (k0 + 1))
        = min h (zh (k0 + 1)) := (min_def h (zh (k0 + 1))).symm
    by_cases hbr : h ≤ zh k0
    · have hz : ∀ m, m ≤ n → zh k0 ≤ zh (k0 + m) := by
        intro m hm
        induction m with
        | zero => exact le_refl _
        | succ l ihl =>
          exact le_trans (ihl (by omega)) (le_of_lt (hmono l (by omega)))
      have hall : ∀ m ∈ Finset.range (n + 1),
          vq (k0 + m) * wSpec zh h (k0 + m) = 0 := by
        intro m hm
        have hm' : m ≤ n := by
          have := Finset.mem_range.mp hm; omega
        have hle : h ≤ zh (k0 + m) := le_trans hbr (hz m hm')
        simp [wSpec, hle]
      rw [Finset.sum_congr rfl hall]
      simp [overlapGo, hbr]
    · have hm0 : zh k0 < zh (k0 + 1) := by
        have := hmono 0 (by omega); simpa using this
      have hk0h : zh k0 < h := lt_of_not_le hbr
      have hwpos : 0 < min h (zh (k0 + 1)) - zh k0 := by
        have : zh k0 < min h (zh (k0 + 1)) := lt_min hk0h hm0
        linarith
      have hv0 : vals k0 = Val.num (vq k0) := by
        have := hv 0 (by omega); simpa using this
      have hws : wSpec zh h k0 = min h (zh (k0 + 1)) - zh k0 := by
        simp [wSpec, hbr]
      have ihh := ih (k0 + 1)
        (fun m hm => by
          have h1 := hv (m + 1) (by omega)
          have he : k0 + (m + 1) = k0 + 1 + m := by omega
          rwa [he] at h1)
        (fun m hm => by
          have h1 := hmono (m + 1) (by omega)
          have he : k0 + (m + 1) = k0 + 1 + m := by omega
          rwa [he] at h1)
      calc overlapGo vals zh h k0 (n + 1)
          = vals k0 * Val.num (min h (zh (k0 + 1)) - zh k0)
              + overlapGo vals zh h (k0 + 1) n := by
            simp only [overlapGo, if_neg hbr, hif, if_pos hwpos]
        _ = Val.num (vq k0 * (min h (zh (k0 + 1)) - zh k0)
              + ∑ m in Finset.range n,
                  vq (k0 + 1 + m) * wSpec zh h (k0 + 1 + m)) := by
            rw [hv0, ihh, Val.num_mul_num, Val.num_add_num]
        _ = Val.num (∑ m in Finset.range (n + 1),
              vq (k0 + m) * wSpec zh h (k0 + m)) := by
            refine congrArg Val.num ?_
            rw [Finset.sum_range_succ']
            have hsum : ∑ i in Finset.range n,
                  vq (k0 + (i + 1)) * wSpec zh h (k0 + (i + 1))
                = ∑ i in Finset.range n,
                  vq (k0 + 1 + i) * wSpec zh h (k0 + 1 + i) :=
              Finset.sum_congr rfl (fun i _ => by
                rw [show k0 + (i + 1) = k0 + 1 + i from by omega])
            rw [hsum, show k0 + 0 = k0 from rfl, hws]
            ring

/-- Projection: for a non-land column with finite positive `h`, the `Tm`
output is the accumulated overlap sum divided by the clipped depth. -/
theorem mlCol_Tm_proj (Tc Uc Vc : ℕ → Val) (depth : ℕ → ℚ) (Nz kbot : ℕ)
    (h0 : ℚ) (hk : kbot ≠ 0) (hh : ¬ h0 ≤ 0) :
    (mlCol Tc Uc Vc (Val.num h0) depth Nz kbot).Tm
      = if 0 < hClip depth kbot h0 then
          overlapGo Tc (zhalfF depth Nz) (hClip depth kbot h0) 0 kbot
            / Val.num (hClip depth kbot h0)
        else Val.nan := by
  simp only [mlCol, if_neg hk, if_neg hh]
  split <;> rfl

/-- Projection: the `Um` output, analogously. -/
theorem mlCol_Um_proj (Tc Uc Vc : ℕ → Val) (depth : ℕ → ℚ) (Nz kbot : ℕ)
    (h0 : ℚ) (hk : kbot ≠ 0) (hh : ¬ h0 ≤ 0) :
    (mlCol Tc Uc Vc (Val.num h0) depth Nz kbot).Um
      = if 0 < hClip depth kbot h0 then
          overlapGo Uc (zhalfF depth Nz) (hClip depth kbot h0) 0 kbot
            / Val.num (hClip depth kbot h0)
        else Val.nan := by
  simp only [mlCol, if_neg hk, if_neg hh]
  split <;> rfl

/-- Projection: the `Vm` output, analogously. -/
theorem mlCol_Vm_proj (Tc Uc Vc : ℕ → Val) (depth : ℕ → ℚ) (Nz kbot : ℕ)
    (h0 : ℚ) (hk : kbot ≠ 0) (hh : ¬ h0 ≤ 0) :
    (mlCol Tc Uc Vc (Val.num h0) depth Nz kbot).Vm
      = if 0 < hClip depth kbot h0 then
          overlapGo Vc (zhalfF depth Nz) (hClip depth kbot h0) 0 kbot
            / Val.num (hClip depth kbot h0)
        else Val.nan := by
  simp only [mlCol, if_neg hk, if_neg hh]
  split <;> rfl

/-- The clipped depth of a valid column is positive. -/
theorem hClip_pos (depth : ℕ → ℚ) (Nz kbot : ℕ) (h0 : ℚ) (hk1 : 1 ≤ kbot)
    (hkN : kbot ≤ Nz) (hdp : ∀ k, k < Nz → 0 < depth k) (hh : 0 < h0) :
    0 < hClip depth kbot h0 := by
  rw [hClip]
  split
  · exact hdp (kbot - 1) (by omega)
  · exact hh

/-- The clipped depth never exceeds the deepest valid center depth. -/
theorem hClip_le (depth : ℕ → ℚ) (kbot : ℕ) (h0 : ℚ) :
    hClip depth kbot h0 ≤ depth (kbot - 1) ∨ hClip depth kbot h0 = h0 := by
  rw [hClip]
  split
  · exact Or.inl (le_refl _)
  · exact Or.inr rfl

/-- The overlap sum of one accumulator, as used by the three projections. -/
theorem mlCol_sum (vals : ℕ → Val) (vq : ℕ → ℚ) (depth : ℕ → ℚ)
    (Nz kbot : ℕ) (h0 : ℚ) (hk1 : 1 ≤ kbot) (hkN : kbot ≤ Nz)
    (hdm : ∀ k, k + 1 < Nz → depth k < depth (k + 1))
    (hdp : ∀ k, k < Nz → 0 < depth k)
    (hvq : ∀ k, k < kbot → vals k = Val.num (vq k)) (hh : 0 < h0) :
    overlapGo vals (zhalfF depth Nz) (hClip depth kbot h0) 0 kbot
        / Val.num (hClip depth kbot h0)
      = Val.num ((∑ k in Finset.range kbot,
          vq k * wSpec (zhalfF depth Nz) (hClip depth kbot h0) k)
          / hClip depth kbot h0) := by
  have hhc := hClip_pos depth Nz kbot h0 hk1 hkN hdp hh
  have hgo := overlapGo_eq_sum vals vq (zhalfF depth Nz)
    (hClip depth kbot h0) kbot 0
    (fun m hm => by simpa using hvq m hm)
    (fun m hm => by
      simpa using zhalfF_strict_mono depth Nz hdm hdp m (by omega))
  rw [hgo, Val.num_div_num, if_neg (ne_of_gt hhc)]
  congr 1
  simp [Nat.zero_add]

/-- C3 (amended): for every valid column with finite level values, the
mixed-layer means `Tm`, `Um`, `Vm` each equal the sum over valid levels of
the level value times the overlap weight
`w_k = min(h, zhalf[k+1]) - zhalf[k]` (taken as `0` once `zhalf[k] ≥ h`),
divided by the clipped `h` — where `zhalf` is the half-level array of the
source (`zhalf[k+1] = (depth[k]+depth[k+1])/2`).  For levels at depths
`[5,15,25,35]` and `h = 20` the half-levels are `[0,10,20,30,40]`, so the
weights are `[10,10,0,0]` each over `20` (not the `[5,10,5,0]` of the
claim's example, which would require half-levels at the centers
themselves; see the counterexample). -/
theorem mixed_layer_mean_overlap_weights (Tc Uc Vc : ℕ → Val)
    (tq uq vq : ℕ → ℚ) (depth : ℕ → ℚ) (Nz kbot : ℕ) (h0 : ℚ)
    (hk1 : 1 ≤ kbot) (hkN : kbot ≤ Nz)
    (hdm : ∀ k, k + 1 < Nz → depth k < depth (k + 1))
    (hdp : ∀ k, k < Nz → 0 < depth k)
    (hT : ∀ k, k < kbot → Tc k = Val.num (tq k))
    (hU : ∀ k, k < kbot → Uc k = Val.num (uq k))
    (hV : ∀ k, k < kbot → Vc k = Val.num (vq k))
    (hh : 0 < h0) :
    (mlCol Tc Uc Vc (Val.num h0) depth Nz kbot).Tm
      = Val.num ((∑ k in Finset.range kbot,
          tq k * wSpec (zhalfF depth Nz) (hClip depth kbot h0) k)
          / hClip depth kbot h0) ∧
    (mlCol Tc Uc Vc (Val.num h0) depth Nz kbot).Um
      = Val.num ((∑ k in Finset.range kbot,
          uq k * wSpec (zhalfF depth Nz) (hClip depth kbot h0) k)
          / hClip depth kbot h0) ∧
    (mlCol Tc Uc Vc (Val.num h0) depth Nz kbot).Vm
      = Val.num ((∑ k in Finset.range kbot,
          vq k * wSpec (zhalfF depth Nz) (hClip depth kbot h0) k)
          / hClip depth kbot h0) := by
  have hkb : kbot ≠ 0 := by omega
  have hh' : ¬ h0 ≤ 0 := not_le.mpr hh
  have hhc := hClip_pos depth Nz kbot h0 hk1 hkN hdp hh
  refine ⟨?_, ?_, ?_⟩
  · rw [mlCol_Tm_proj Tc Uc Vc depth Nz kbot h0 hkb hh', if_pos hhc]
    exact mlCol_sum Tc tq depth Nz kbot h0 hk1 hkN hdm hdp hT hh
  · rw [mlCol_Um_proj Tc Uc Vc depth Nz kbot h0 hkb hh', if_pos hhc]
    exact mlCol_sum Uc uq depth Nz kbot h0 hk1 hkN hdm hdp hU hh
  · rw [mlCol_Vm_proj Tc Uc Vc depth Nz kbot h0 hkb hh', if_pos hhc]
    exact mlCol_sum Vc vq depth Nz kbot h0 hk1 hkN hdm hdp hV hh

/-- The example column of the claim: centers at depths `[5,15,25,35]`. -/
def depthW4 : ℕ → ℚ := fun k => 5 + 10 * (k : ℚ)

/-- Level temperatures `1, 2, 3, 4` on the example column. -/
def tqEx : ℕ → ℚ := fun k => (k : ℚ) + 1

/-- The example column's temperatures as cells. -/
def TcEx : ℕ → Val := fun k => Val.num (tqEx k)

/-- C3 counterexample: at depths `[5,15,25,35]` with `h = 20`, the code's
weight of the surface level is `10`, not the claimed `5`, and the
mixed-layer mean of temperatures `[1,2,3,4]` is
`(1·10 + 2·10)/20 = 3/2` — not the `(1·5 + 2·10 + 3·5)/20 = 2` predicted
by the claimed weights `[5,10,5,0]`. -/
theorem mixed_layer_example_weights_cex :
    wSpec (zhalfF depthW4 4) 20 0 = 10 ∧ (10 : ℚ) ≠ 5 ∧
    (mlCol TcEx TcEx TcEx (Val.num 20) depthW4 4 4).Tm = Val.num (3 / 2) ∧
    Val.num (3 / 2) ≠ Val.num 2 := by
  refine ⟨by with_unfolding_all rfl, by norm_num,
    by with_unfolding_all rfl, ?_⟩
  intro h
  have h2 := Val.num.inj h
  norm_num at h2

theorem mixed_layer_mean_overlap_weights_witness :
    (mlCol TcEx TcEx TcEx (Val.num 12) depthW4 4 4).Tm = Val.num (7 / 6) := by
  have h := mixed_layer_mean_overlap_weights TcEx TcEx TcEx tqEx tqEx tqEx
    depthW4 4 4 12 (by omega) (by omega)
    (by intro k hk
        simp only [depthW4]
        push_cast
        linarith)
    (by intro k hk
        simp only [depthW4]
        positivity)
    (fun k _ => rfl) (fun k _ => rfl) (fun k _ => rfl) (by norm_num)
  rw [h.1]
  with_unfolding_all rfl

/-- Spec-side weights are never negative (given increasing half-levels). -/
theorem wSpec_nonneg (zh : ℕ → ℚ) (h : ℚ) (k : ℕ)
    (hmono : zh k ≤ zh (k + 1)) : 0 ≤ wSpec zh h k := by
  rw [wSpec]
  split
  · exact le_refl 0
  · rename_i hb
    have h1 : zh k < h := lt_of_not_le hb
    have h2 : zh k ≤ min h (zh (k + 1)) := le_min (le_of_lt h1) hmono
    linarith

/-- Each weight telescopes: `w_k = min(h, zhalf[k+1]) - min(h, zhalf[k])`. -/
theorem wSpec_eq_telescope (zh : ℕ → ℚ) (h : ℚ) (k : ℕ)
    (hmono : zh k ≤ zh (k + 1)) :
    wSpec zh h k = min h (zh (k + 1)) - min h (zh k) := by
  rw [wSpec]
  split
  · rename_i hb
    rw [min_eq_left (le_trans hb hmono), min_eq_left hb]
    ring
  · rename_i hb
    rw [min_eq_right (le_of_not_le hb)]

/-- The weights of levels above `zhalf[n] ≥ h > 0` sum to exactly `h`. -/
theorem wSpec_sum_eq (zh : ℕ → ℚ) (h : ℚ) (n : ℕ)
    (hmono : ∀ m, m < n → zh m < zh (m + 1)) (hz0 : zh 0 = 0)
    (hpos : 0 < h) (hle : h ≤ zh n) :
    ∑ k in Finset.range n, wSpec zh h k = h := by
  have hcong : ∀ k ∈ Finset.range n,
      wSpec zh h k = min h (zh (k + 1)) - min h (zh k) := fun k hk =>
    wSpec_eq_telescope zh h k (le_of_lt (hmono k (Finset.mem_range.mp hk)))
  rw [Finset.sum_congr rfl hcong,
    Finset.sum_range_sub (fun k => min h (zh k))]
  rw [hz0, min_eq_left hle, min_eq_right (le_of_lt hpos)]
  ring

/-- The clipped depth is bounded by the half-level below the last valid
center: `hClip ≤ zhalf[kbot]`. -/
theorem hClip_le_zhalfF (depth : ℕ → ℚ) (Nz kbot : ℕ) (h0 : ℚ)
    (hk1 : 1 ≤ kbot) (hkN : kbot ≤ Nz)
    (hdm : ∀ k, k + 1 < Nz → depth k < depth (k + 1)) :
    hClip depth kbot h0 ≤ zhalfF depth Nz kbot := by
  have h2 : depth (kbot - 1) ≤ zhalfF depth Nz (kbot - 1 + 1) :=
    depth_le_zhalfF_succ depth Nz hdm (kbot - 1) (by omega)
  have h3 : kbot - 1 + 1 = kbot := by omega
  rw [h3] at h2
  rw [hClip]
  split
  · exact h2
  · rename_i hnlt
    exact le_trans (le_of_not_lt hnlt) h2

/-- C10: for every valid column the overlap weights over the valid levels
sum to exactly the clipped mixed-layer depth, and consequently (for finite
level temperatures) `Tm` is a convex combination of the level values whose
levels intersect `[0, h)`: some intersecting level is `≤ Tm` and some is
`≥ Tm`. -/
theorem overlap_weights_sum_and_convexity (Tc Uc Vc : ℕ → Val) (tq : ℕ → ℚ)
    (depth : ℕ → ℚ) (Nz kbot : ℕ) (h0 : ℚ)
    (hk1 : 1 ≤ kbot) (hkN : kbot ≤ Nz)
    (hdm : ∀ k, k + 1 < Nz → depth k < depth (k + 1))
    (hdp : ∀ k, k < Nz → 0 < depth k)
    (hT : ∀ k, k < kbot → Tc k = Val.num (tq k))
    (hh : 0 < h0) :
    (∑ k in Finset.range kbot,
        wSpec (zhalfF depth Nz) (hClip depth kbot h0) k
      = hClip depth kbot h0) ∧
    (∃ t : ℚ, (mlCol Tc Uc Vc (Val.num h0) depth Nz kbot).Tm = Val.num t ∧
      (∃ k1, k1 < kbot ∧ zhalfF depth Nz k1 < hClip depth kbot h0 ∧
        tq k1 ≤ t) ∧
      (∃ k2, k2 < kbot ∧ zhalfF depth Nz k2 < hClip depth kbot h0 ∧
        t ≤ tq k2)) := by
  have hkb : kbot ≠ 0 := by omega
  have hh' : ¬ h0 ≤ 0 := not_le.mpr hh
  have hhc := hClip_pos depth Nz kbot h0 hk1 hkN hdp hh
  have hmono : ∀ m, m < kbot →
      zhalfF depth Nz m < zhalfF depth Nz (m + 1) := fun m hm =>
    zhalfF_strict_mono depth Nz hdm hdp m (by omega)
  have hz0 : zhalfF depth Nz 0 = 0 := by simp [zhalfF]
  have hsum := wSpec_sum_eq (zhalfF depth Nz) (hClip depth kbot h0) kbot
    hmono hz0 hhc (hClip_le_zhalfF depth Nz kbot h0 hk1 hkN hdm)
  refine ⟨hsum, ?_⟩
  have hTm : (mlCol Tc Uc Vc (Val.num h0) depth Nz kbot).Tm
      = Val.num ((∑ k in Finset.range kbot,
          tq k * wSpec (zhalfF depth Nz) (hClip depth kbot h0) k)
          / hClip depth kbot h0) := by
    rw [mlCol_Tm_proj Tc Uc Vc depth Nz kbot h0 hkb hh', if_pos hhc]
    exact mlCol_sum Tc tq depth Nz kbot h0 hk1 hkN hdm hdp hT hh
  set A := (Finset.range kbot).filter
    (fun k => zhalfF depth Nz k < hClip depth kbot h0) with hA_def
  have hA : A.Nonempty := by
    refine ⟨0, Finset.mem_filter.mpr ⟨Finset.mem_range.mpr (by omega), ?_⟩⟩
    rw [hz0]
    exact hhc
  have hwz : ∀ k, k < kbot → ¬ zhalfF depth Nz k < hClip depth kbot h0 →
      wSpec (zhalfF depth Nz) (hClip depth kbot h0) k = 0 := by
    intro k _ hk
    rw [wSpec, if_pos (not_lt.mp hk)]
  have hwnn : ∀ k, k < kbot →
      0 ≤ wSpec (zhalfF depth Nz) (hClip depth kbot h0) k := fun k hk =>
    wSpec_nonneg _ _ k (le_of_lt (hmono k hk))
  obtain ⟨k2, hk2A, hk2max⟩ := Finset.exists_max_image A tq hA
  obtain ⟨k1, hk1A, hk1min⟩ := Finset.exists_min_image A tq hA
  obtain ⟨hk2r, hk2z⟩ := Finset.mem_filter.mp hk2A
  obtain ⟨hk1r, hk1z⟩ := Finset.mem_filter.mp hk1A
  have hub : (∑ k in Finset.range kbot,
      tq k * wSpec (zhalfF depth Nz) (hClip depth kbot h0) k)
      ≤ tq k2 * hClip depth kbot h0 := by
    calc (∑ k in Finset.range kbot,
        tq k * wSpec (zhalfF depth Nz) (hClip depth kbot h0) k)
        ≤ ∑ k in Finset.range kbot,
          tq k2 * wSpec (zhalfF depth Nz) (hClip depth kbot h0) k := by
          refine Finset.sum_le_sum ?_
          intro k hk
          have hkr := Finset.mem_range.mp hk
          by_cases hz : zhalfF depth Nz k < hClip depth kbot h0
          · exact mul_le_mul_of_nonneg_right
              (hk2max k (Finset.mem_filter.mpr ⟨hk, hz⟩)) (hwnn k hkr)
          · rw [hwz k hkr hz]
            simp
      _ = tq k2 * hClip depth kbot h0 := by
          rw [← Finset.mul_sum, hsum]
  have hlb : tq k1 * hClip depth kbot h0
      ≤ ∑ k in Finset.range kbot,
        tq k * wSpec (zhalfF depth Nz) (hClip depth kbot h0) k := by
    calc tq k1 * hClip depth kbot h0
        = ∑ k in Finset.range kbot,
          tq k1 * wSpec (zhalfF depth Nz) (hClip depth kbot h0) k := by
          rw [← Finset.mul_sum, hsum]
      _ ≤ ∑ k in Finset.range kbot,
          tq k * wSpec (zhalfF depth Nz) (hClip depth kbot h0) k := by
          refine Finset.sum_le_sum ?_
          intro k hk
          have hkr := Finset.mem_range.mp hk
          by_cases hz : zhalfF depth Nz k < hClip depth kbot h0
          · exact mul_le_mul_of_nonneg_right
              (hk1min k (Finset.mem_filter.mpr ⟨hk, hz⟩)) (hwnn k hkr)
          · rw [hwz k hkr hz]
            simp
  refine ⟨_, hTm, ⟨k1, Finset.mem_range.mp hk1r, hk1z, ?_⟩,
    ⟨k2, Finset.mem_range.mp hk2r, hk2z, ?_⟩⟩
  · rw [le_div_iff₀ hhc]
    exact hlb
  · rw [div_le_iff₀ hhc]
    exact hub

theorem overlap_weights_sum_and_convexity_witness :
    (∑ k in Finset.range 4,
        wSpec (zhalfF depthW4 4) (hClip depthW4 4 20) k
      = hClip depthW4 4 20) ∧
    (∃ t : ℚ, (mlCol TcEx TcEx TcEx (Val.num 20) depthW4 4 4).Tm = Val.num t ∧
      (∃ k1, k1 < 4 ∧ zhalfF depthW4 4 k1 < hClip depthW4 4 20 ∧
        tqEx k1 ≤ t) ∧
      (∃ k2, k2 < 4 ∧ zhalfF depthW4 4 k2 < hClip depthW4 4 20 ∧
        t ≤ tqEx k2)) :=
  overlap_weights_sum_and_convexity TcEx TcEx TcEx tqEx depthW4 4 4 20
    (by omega) (by omega)
    (by intro k hk
        simp only [depthW4]
        push_cast
        linarith)
    (by intro k hk
        simp only [depthW4]
        positivity)
    (fun k _ => rfl) (by norm_num)

/-! ## Claim C4: boundary pair index, interpolation and fallback -/

/-- The scan never counts more entries than its fuel. -/
theorem ssrGo_le (a : ℕ → ℚ) (v : ℚ) :
    ∀ fuel k, ssrGo a v k fuel ≤ fuel := by
  intro fuel
  induction fuel with
  | zero => intro k; simp [ssrGo]
  | succ n ih =>
    intro k
    simp only [ssrGo]
    split
    · exact Nat.succ_le_succ (ih (k + 1))
    · exact Nat.zero_le _

/-- Every index below the scan count satisfies the predicate. -/
theorem ssrGo_prefix (a : ℕ → ℚ) (v : ℚ) :
    ∀ fuel k m, m < ssrGo a v k fuel → a (k + m) ≤ v := by
  intro fuel
  induction fuel with
  | zero => intro k m hm; simp [ssrGo] at hm
  | succ n ih =>
    intro k m hm
    simp only [ssrGo] at hm
    by_cases hak : a k ≤ v
    · rw [if_pos hak] at hm
      cases m with
      | zero => simpa using hak
      | succ l =>
        have hl : l < ssrGo a v (k + 1) n := by omega
        have h1 := ih (k + 1) l hl
        have he : k + (l + 1) = k + 1 + l := by omega
        rwa [he]
    · rw [if_neg hak] at hm
      omega

/-- The entry at the scan count (when within fuel) fails the predicate. -/
theorem ssrGo_stop (a : ℕ → ℚ) (v : ℚ) :
    ∀ fuel k, ssrGo a v k fuel < fuel → ¬ a (k + ssrGo a v k fuel) ≤ v := by
  intro fuel
  induction fuel with
  | zero => intro k h; omega
  | succ n ih =>
    intro k h
    by_cases hak : a k ≤ v
    · have hs : ssrGo a v k (n + 1) = ssrGo a v (k + 1) n + 1 := by
        simp only [ssrGo, if_pos hak]
      rw [hs] at h ⊢
      have h1 := ih (k + 1) (by omega)
      have he : k + (ssrGo a v (k + 1) n + 1) = k + 1 + ssrGo a v (k + 1) n := by
        omega
      rwa [he]
    · have hs : ssrGo a v k (n + 1) = 0 := by simp only [ssrGo, if_neg hak]
      rw [hs]
      simpa using hak

/-- On a sorted prefix, the searched count characterises exactly the
indices whose depth is `≤ v`: the largest index with `depth ≤ v` is the
count minus one. -/
theorem searchsorted_char (depth : ℕ → ℚ) (Nz kbot : ℕ) (v : ℚ)
    (hkN : kbot ≤ Nz)
    (hdm : ∀ k, k + 1 < Nz → depth k < depth (k + 1)) :
    ∀ m, m < kbot → (depth m ≤ v ↔ m < searchsortedRight depth kbot v) := by
  intro m hm
  constructor
  · intro hdv
    by_contra hns
    push_neg at hns
    have hS : searchsortedRight depth kbot v < kbot := lt_of_le_of_lt hns hm
    have hstop := ssrGo_stop depth v kbot 0 hS
    rw [Nat.zero_add] at hstop
    have hmono := depth_mono_le depth Nz hdm
      (searchsortedRight depth kbot v) m hns (by omega)
    exact hstop (le_trans hmono hdv)
  · intro hlt
    have h1 := ssrGo_prefix depth v kbot 0 m hlt
    rwa [Nat.zero_add] at h1

/-- The clamped pair index is the clamp of `searchsorted - 1` into
`[0, kbot-2]`, for `kbot ≥ 2`. -/
theorem posClamped_eq (depth : ℕ → ℚ) (kbot : ℕ) (h : ℚ) (hk : 2 ≤ kbot) :
    posClamped depth kbot h
      = max 0 (min ((searchsortedRight depth kbot h : ℤ) - 1)
          ((kbot : ℤ) - 2)) := by
  simp only [posClamped]
  split_ifs <;> omega

/-- For a single-valid-level column the clamped pair index is `-1`
(a Python index for the deepest level of the full array). -/
theorem posClamped_one (depth : ℕ → ℚ) (h : ℚ) :
    posClamped depth 1 h = -1 := by
  have hle : searchsortedRight depth 1 h ≤ 1 := ssrGo_le depth h 1 0
  simp only [posClamped]
  split_ifs <;> omega

/-- A non-negative Python index is itself. -/
theorem pyIdx_natCast (n p : ℕ) : pyIdx n (p : ℤ) = p := by
  simp only [pyIdx]
  rw [if_neg (by omega)]
  omega

/-- Python index `-1` into an array of length `n ≥ 1` is `n - 1`. -/
theorem pyIdx_negOne (n : ℕ) (hn : 1 ≤ n) : pyIdx n (-1) = n - 1 := by
  simp only [pyIdx]
  rw [if_pos (by omega)]
  omega

/-- C4: the boundary pair index `pos` is `searchsorted(depth[:kbot], h,
'right') - 1` — the largest index with `depth ≤ h` — clamped into
`[0, kbot-2]`; when both pair temperatures are finite (the pair's depths
are strictly ordered by the data-model invariant) `Tb` is the linear
interpolation of temperature at the clipped `h` within the pair and
`Tz_h` is the pair's finite-difference slope; otherwise — including every
single-valid-level column (`kbot = 1`, whose underflowed index `-1` makes
the Python-indexed pair `(depth[Nz-1], depth[0])` fail the ordering
test) — the fallback `Tb = Tm`, `Tz_h = 0` is used. -/
theorem boundary_pair_interp_fallback (Tc Uc Vc : ℕ → Val)
    (depth : ℕ → ℚ) (Nz kbot : ℕ) (h0 : ℚ)
    (hk1 : 1 ≤ kbot) (hkN : kbot ≤ Nz)
    (hdm : ∀ k, k + 1 < Nz → depth k < depth (k + 1))
    (hdp : ∀ k, k < Nz → 0 < depth k)
    (hh : 0 < h0) :
    (∀ m, m < kbot → (depth m ≤ hClip depth kbot h0 ↔
      m < searchsortedRight depth kbot (hClip depth kbot h0))) ∧
    (2 ≤ kbot → posClamped depth kbot (hClip depth kbot h0)
      = max 0 (min
          ((searchsortedRight depth kbot (hClip depth kbot h0) : ℤ) - 1)
          ((kbot : ℤ) - 2))) ∧
    (∀ p : ℕ, 2 ≤ kbot →
      posClamped depth kbot (hClip depth kbot h0) = (p : ℤ) →
      ∀ a b : ℚ, Tc p = Val.num a → Tc (p + 1) = Val.num b →
        (mlCol Tc Uc Vc (Val.num h0) depth Nz kbot).Tb
          = Val.num (a + (hClip depth kbot h0 - depth p)
              / (depth (p + 1) - depth p) * (b - a)) ∧
        (mlCol Tc Uc Vc (Val.num h0) depth Nz kbot).TzH
          = Val.num ((b - a) / (depth (p + 1) - depth p))) ∧
    (kbot = 1 →
      (mlCol Tc Uc Vc (Val.num h0) depth Nz kbot).Tb
        = (mlCol Tc Uc Vc (Val.num h0) depth Nz kbot).Tm ∧
      (mlCol Tc Uc Vc (Val.num h0) depth Nz kbot).TzH = Val.num 0) ∧
    (∀ p : ℕ, 2 ≤ kbot →
      posClamped depth kbot (hClip depth kbot h0) = (p : ℤ) →
      ((Tc p).isfinite = false ∨ (Tc (p + 1)).isfinite = false) →
      (mlCol Tc Uc Vc (Val.num h0) depth Nz kbot).Tb
        = (mlCol Tc Uc Vc (Val.num h0) depth Nz kbot).Tm ∧
      (mlCol Tc Uc Vc (Val.num h0) depth Nz kbot).TzH = Val.num 0) := by
  have hkb : kbot ≠ 0 := by omega
  have hh' : ¬ h0 ≤ 0 := not_le.mpr hh
  refine ⟨searchsorted_char depth Nz kbot (hClip depth kbot h0) hkN hdm,
    fun hk2 => posClamped_eq depth kbot (hClip depth kbot h0) hk2,
    ?_, ?_, ?_⟩
  · intro p hk2 hpos a b ha hb
    have hpb : (p : ℤ) ≤ (kbot : ℤ) - 2 := by
      rw [posClamped_eq depth kbot (hClip depth kbot h0) hk2] at hpos
      omega
    have hpN : p + 1 < Nz := by omega
    have hdlt : depth p < depth (p + 1) := hdm p hpN
    have hcast : (p : ℤ) + 1 = ((p + 1 : ℕ) : ℤ) := by push_cast; ring
    simp only [mlCol, if_neg hkb, if_neg hh']
    rw [hpos, hcast, pyIdx_natCast, pyIdx_natCast, ha, hb]
    rw [if_pos ⟨hdlt, rfl, rfl⟩]
    constructor
    · simp
    · rw [Val.num_sub_num, Val.num_div_num,
        if_neg (sub_ne_zero.mpr (ne_of_gt hdlt))]
  · intro hkeq
    subst hkeq
    have hpc : posClamped depth 1 (hClip depth 1 h0) = -1 :=
      posClamped_one depth _
    have h1N : 1 ≤ Nz := hkN
    have hnlt : ¬ depth (Nz - 1) < depth 0 :=
      not_lt.mpr (depth_mono_le depth Nz hdm 0 (Nz - 1) (by omega) (by omega))
    have hcast : (-1 : ℤ) + 1 = ((0 : ℕ) : ℤ) := by norm_num
    simp only [mlCol, if_neg hkb, if_neg hh']
    rw [hpc, hcast, pyIdx_negOne Nz h1N, pyIdx_natCast]
    rw [if_neg (fun hcon => hnlt hcon.1)]
    exact ⟨rfl, rfl⟩
  · intro p hk2 hpos hnf
    have hcast : (p : ℤ) + 1 = ((p + 1 : ℕ) : ℤ) := by push_cast; ring
    simp only [mlCol, if_neg hkb, if_neg hh']
    rw [hpos, hcast, pyIdx_natCast, pyIdx_natCast]
    rw [if_neg (fun hcon => by
      rcases hnf with hfa | hfb
      · rw [hfa] at hcon
        exact Bool.noConfusion hcon.2.1
      · rw [hfb] at hcon
        exact Bool.noConfusion hcon.2.2)]
    exact ⟨rfl, rfl⟩

/-- The claim's example depths `10, 20`. -/
def depthB2 : ℕ → ℚ := fun k => 10 * (k : ℚ) + 10

/-- The claim's example temperatures `15, 10`. -/
def TcB2 : ℕ → Val := fun k => Val.num (15 - 5 * (k : ℚ))

theorem boundary_pair_interp_fallback_witness :
    (mlCol TcB2 TcB2 TcB2 (Val.num 15) depthB2 2 2).Tb = Val.num (25 / 2) ∧
    (mlCol TcB2 TcB2 TcB2 (Val.num 15) depthB2 2 2).TzH
      = Val.num (-(1 / 2)) := by
  have h := boundary_pair_interp_fallback TcB2 TcB2 TcB2 depthB2 2 2 15
    (by omega) (by omega)
    (by intro k hk
        simp only [depthB2]
        push_cast
        linarith)
    (by intro k hk
        simp only [depthB2]
        positivity)
    (by norm_num)
  obtain ⟨hTb, hTz⟩ := h.2.2.1 0 (by omega) (by with_unfolding_all rfl)
    15 10 (by with_unfolding_all rfl) (by with_unfolding_all rfl)
  constructor
  · rw [hTb]
    with_unfolding_all rfl
  · rw [hTz]
    with_unfolding_all rfl
